import Mathlib

/-!
Verification of the meta-workspace tool (manifest mutation engine and
repository grouping / batch git runner).

The TOML document model follows `toml_edit` as used by `src/editor.rs`:
a document is an association list from keys to items, an item is either a
string value, another scalar value, an inline table, a standard table, or
the `None` item.  Rust strings are modelled as `List Char`.
-/

set_option linter.unusedVariables false

namespace MetaTool

/-- TOML item, mirroring `toml_edit::Item` as used by `editor.rs`:
`str` is a string value, `scalar` any other (non-table) value,
`inlineTable` a `Value::InlineTable`, `table` an `Item::Table`, and
`noneItem` is `Item::None`. -/
inductive Item where
  | str (s : List Char)
  | scalar (n : Nat)
  | inlineTable (t : List (String × Item))
  | table (t : List (String × Item))
  | noneItem

/-- Lookup of the entry for a key in a table (`Table::get` / `InlineTable::get`). -/
def getEntry : List (String × Item) → String → Option Item
  | [], _ => none
  | e :: rest, key => if e.1 = key then some e.2 else getEntry rest key

/-- Map-style insertion (`InlineTable::insert` / indexed assignment): if the key
is present the value is replaced in place, otherwise the pair is appended. -/
def setEntry : List (String × Item) → String → Item → List (String × Item)
  | [], key, v => [(key, v)]
  | e :: rest, key, v => if e.1 = key then (key, v) :: rest else e :: setEntry rest key v

/-- Removal of a key from a table (`InlineTable::remove`); TOML tables have
unique keys, so removing every pair with the key models map removal. -/
def removeKey : List (String × Item) → String → List (String × Item)
  | [], _ => []
  | e :: rest, key => if e.1 = key then removeKey rest key else e :: removeKey rest key

/-- Key-membership test (`contains_key`). -/
def containsKey (t : List (String × Item)) (key : String) : Bool :=
  t.any (fun e => e.1 = key)

/-- First-character test used by `editor.rs` line 58: `tag_str.starts_with('v')`. -/
def startsWithV : List Char → Bool
  | c :: _ => c = 'v'
  | [] => false

/-- Rewrite of one inline-table dependency declaration whose key is a known
package (`editor.rs` lines 47-66): update `version` if present; then either
replace `branch` by `tag = "v" + new_version`, or update an existing string
`tag` preserving its `v`-prefix convention. -/
def updateInline (newVersion : List Char) (t : List (String × Item)) :
    List (String × Item) :=
  let t1 := if containsKey t "version" then setEntry t "version" (.str newVersion) else t
  if containsKey t1 "branch" then
    setEntry (removeKey t1 "branch") "tag" (.str ('v' :: newVersion))
  else
    match getEntry t1 "tag" with
    | some (.str s) =>
        setEntry t1 "tag" (.str (if startsWithV s then 'v' :: newVersion else newVersion))
    | _ => t1

/-- Rewrite of one dependency declaration whose key is a known package
(`editor.rs` lines 47-72): inline tables are rewritten by `updateInline`,
any other value (`dep_item.is_value()`) is replaced by the bare version
string, and struct-like `Item::Table` declarations are left unhandled. -/
def updateDecl (newVersion : List Char) : Item → Item
  | .inlineTable t => .inlineTable (updateInline newVersion t)
  | .str _ => .str newVersion
  | .scalar _ => .str newVersion
  | .table t => .table t
  | .noneItem => .noneItem

/-- Pass over one dependency table (`editor.rs` lines 38-73): every entry whose
key is in the known-package list is rewritten, the rest are left as they are. -/
def updateDepsTable (members : List String) (newVersion : List Char)
    (t : List (String × Item)) : List (String × Item) :=
  t.map (fun e => if members.contains e.1 then (e.1, updateDecl newVersion e.2) else e)

/-- The three dependency tables visited by `update_dependencies` (`editor.rs` line 34). -/
def depTables : List String := ["dependencies", "dev-dependencies", "build-dependencies"]

/-- Pass of `update_dependencies` over the table with the given name
(`editor.rs` lines 36-37): the entry is rewritten only when present and an
`Item::Table` (`as_table_mut`). -/
def updateTablesAt (members : List String) (newVersion : List Char)
    (doc : List (String × Item)) (name : String) : List (String × Item) :=
  match getEntry doc name with
  | some (.table t) => setEntry doc name (.table (updateDepsTable members newVersion t))
  | _ => doc

/-- `CrateEditor::update_dependencies` (`editor.rs` lines 32-77). -/
def update_dependencies (members : List String) (newVersion : List Char)
    (doc : List (String × Item)) : List (String × Item) :=
  depTables.foldl (updateTablesAt members newVersion) doc

/-- Indexed assignment `item[key] = v` (`toml_edit` `index_or_insert` plus
assignment): succeeds on table-like items, turns `Item::None` into an implicit
standard table, and panics (`none`) on any other value. -/
def itemSetKey : Item → String → Item → Option Item
  | .table t, key, v => some (.table (setEntry t key v))
  | .inlineTable t, key, v => some (.inlineTable (setEntry t key v))
  | .noneItem, key, v => some (.table (setEntry [] key v))
  | _, _, _ => none

/-- `CrateEditor::bump_version` (`editor.rs` lines 27-30):
`doc["package"]["version"] = value(new_version.to_string())`.  The root lookup
inserts `Item::None` for a missing `package` key; `none` models the panic of
`index_or_insert` on a non-table `package` item. -/
def bump_version (doc : List (String × Item)) (newVersion : List Char) :
    Option (List (String × Item)) :=
  let pk := (getEntry doc "package").getD .noneItem
  match itemSetKey pk "version" (.str newVersion) with
  | some pk2 => some (setEntry doc "package" pk2)
  | none => none

/-- Table-like lookup `Item::get` (tables and inline tables only). -/
def tableGet : Item → String → Option Item
  | .table t, key => getEntry t key
  | .inlineTable t, key => getEntry t key
  | _, _ => none

/-- Lookup performed by `CrateEditor::get_version` (`editor.rs` lines 87-93)
before the semver parse: `doc.get("package").and_then(|p| p.get("version"))`. -/
def getVersionItem (doc : List (String × Item)) : Option Item :=
  match getEntry doc "package" with
  | some pk => tableGet pk "version"
  | none => none

end MetaTool

namespace MetaTool

/-! Repository grouping (`git.rs`).  Paths are abstract strings; the
filesystem-dependent `find_git_root` call is a parameter of the loop. -/

/-- Loop body of `get_unique_repos` (`git.rs` lines 11-21): the accumulator is
the pair of unique roots found so far (insertion order) and the members warned
about so far; an `Err` from `find_git_root` aborts via `?`. -/
def getUniqueAux (findRoot : String → Except String (Option String)) :
    List String → List String × List String →
      Except String (List String × List String)
  | [], acc => .ok acc
  | m :: rest, acc =>
    match findRoot m with
    | .error e => .error e
    | .ok (some root) =>
        getUniqueAux findRoot rest
          (if root ∈ acc.1 then acc else (acc.1 ++ [root], acc.2))
    | .ok none => getUniqueAux findRoot rest (acc.1, acc.2 ++ [m])

/-- `get_unique_repos` (`git.rs` lines 7-26), parameterized by the
`find_git_root` action: deduplicated roots are sorted before being returned;
the second component collects the members for which a warning was printed. -/
def get_unique_repos (findRoot : String → Except String (Option String))
    (members : List String) : Except String (List String × List String) :=
  match getUniqueAux findRoot members ([], []) with
  | .error e => .error e
  | .ok (paths, warns) => .ok (List.insertionSort (· ≤ ·) paths, warns)

/-- Upward walk of `find_git_root` (`git.rs` lines 31-41) over a canonicalized
path given as a component list; the marker test `current.join(".git").exists()`
is the predicate `hasGit`, and `dropLast` is `Path::parent` (the empty list is
the filesystem root, which has no parent). -/
def walkUp (hasGit : List String → Bool) (c : List String) : Option (List String) :=
  if hasGit c then some c
  else if h : c = [] then none
  else walkUp hasGit c.dropLast
termination_by c.length
decreasing_by
  simp only [List.length_dropLast]
  exact Nat.sub_lt (List.length_pos.mpr h) Nat.one_pos

/-- `find_git_root` (`git.rs` lines 28-42): canonicalization failure is a hard
error (`context(...)?`); otherwise the upward walk runs on the canonical path. -/
def find_git_root (canon : List String → Option (List String))
    (hasGit : List String → Bool) (p : List String) :
    Except String (Option (List String)) :=
  match canon p with
  | none => .error "Failed to canonicalize path"
  | some c => .ok (walkUp hasGit c)

/-! Batch runner (`main.rs`). -/

/-- Loop of `run_git_on_all` (`main.rs` lines 106-110): each group's failure is
printed (collected here as a `(repo, message)` diagnostic) and the loop
continues with the next group. -/
def runGitLoop (op : String → List String → Except String Unit) :
    List (String × List String) → List (String × String)
  | [] => []
  | g :: rest =>
    match op g.1 g.2 with
    | .error e => (g.1, e) :: runGitLoop op rest
    | .ok _ => runGitLoop op rest

/-- Outcome of `run_git_on_all`: the diagnostics printed and the returned `Result`. -/
structure RunOutcome where
  diagnostics : List (String × String)
  result : Except String Unit

/-- `run_git_on_all` (`main.rs` lines 90-112) given the repository groups: runs
the operation on every group, collecting diagnostics, and returns `Ok(())`. -/
def run_git_on_all (op : String → List String → Except String Unit)
    (groups : List (String × List String)) : RunOutcome :=
  { diagnostics := runGitLoop op groups, result := .ok () }

/-- Exit status of the process for the `Result` returned by `main`
(`anyhow`: `Ok` exits 0, `Err` exits 1). -/
def processExitCode : Except String Unit → Nat
  | .ok _ => 0
  | .error _ => 1

/-- Modelled from the spec: the three-argument `commit(repo, message, files)`
called by `main.rs` lines 74-77 and exercised by `test_commit_specifics` is
absent from the `git.rs` snapshot (which holds a stale two-argument version).
Per spec §4.5 it is a logged no-op on an empty file list, and otherwise stages
exactly the given files and then commits, failing if either git invocation
fails.  `run` is the command-execution collaborator of §6 restricted to its
success bit; the second component is the list of git invocations issued. -/
def commit (run : List String → Bool) (message : String) (files : List String) :
    Except String Unit × List (List String) :=
  match files with
  | [] => (.ok (), [])
  | _ =>
    let addCmd := "add" :: files
    if run addCmd then
      let commitCmd := ["commit", "-m", message]
      ((if run commitCmd then .ok () else .error "Git command failed"),
        [addCmd, commitCmd])
    else (.error "Git command failed", [addCmd])

/-! Formatting-preserving manifest parsing (spec §4.1).  `CrateEditor::new`
delegates parsing to `toml_edit` and `save` writes `doc.to_string()`; the
parser itself is not part of this repository's sources, so the model below is
written from the spec: each parsed line keeps its surrounding trivia
(whitespace, comments) so that serialization can reproduce the input. -/

/-- Whitespace characters inside a line. -/
def isWsChar (c : Char) : Bool := c = ' ' || c = '\t'

/-- Characters allowed in bare keys and table names. -/
def isKeyChar (c : Char) : Bool := c.isAlphanum || c = '-' || c = '_'

/-- Modelled from the spec: one parsed manifest line with its trivia.  A line
is blank, a comment, a table header `[name]`, or a key/value pair
`key = "value"`; the `ws` fields hold the surrounding whitespace verbatim. -/
inductive MLine where
  | blank (ws : List Char)
  | comment (ws : List Char) (text : List Char)
  | header (ws1 : List Char) (name : List Char) (ws2 : List Char)
  | kv (ws1 : List Char) (key : List Char) (ws2 ws3 : List Char)
      (val : List Char) (ws4 : List Char)

/-- Serialization of one parsed line, reinserting the recorded trivia. -/
def renderLine : MLine → List Char
  | .blank ws => ws
  | .comment ws text => ws ++ '#' :: text
  | .header ws1 name ws2 => ws1 ++ '[' :: (name ++ ']' :: ws2)
  | .kv ws1 key ws2 ws3 val ws4 =>
      ws1 ++ key ++ ws2 ++ '=' :: (ws3 ++ '"' :: (val ++ '"' :: ws4))

/-- Longest Boolean-predicate split of a character list. -/
def spanP (p : Char → Bool) : List Char → List Char × List Char
  | [] => ([], [])
  | c :: cs =>
      if p c then
        let r := spanP p cs
        (c :: r.1, r.2)
      else ([], c :: cs)

/-- Modelled from the spec: parsing of one manifest line into `MLine`,
recording all trivia; `none` on a syntactically invalid line. -/
def parseLine (l : List Char) : Option MLine :=
  let s1 := spanP isWsChar l
  match s1.2 with
  | [] => some (.blank s1.1)
  | c :: r1 =>
    if c = '#' then some (.comment s1.1 r1)
    else if c = '[' then
      let s2 := spanP (fun x => !decide (x = ']')) r1
      match s2.2 with
      | [] => none
      | c2 :: ws2 =>
        if c2 = ']' then
          if s2.1.all isKeyChar && ws2.all isWsChar then
            some (.header s1.1 s2.1 ws2)
          else none
        else none
    else
      let s2 := spanP isKeyChar s1.2
      if s2.1 = [] then none
      else
        let s3 := spanP isWsChar s2.2
        match s3.2 with
        | [] => none
        | c3 :: r4 =>
          if c3 = '=' then
            let s4 := spanP isWsChar r4
            match s4.2 with
            | [] => none
            | c4 :: r6 =>
              if c4 = '"' then
                let s5 := spanP (fun x => !decide (x = '"')) r6
                match s5.2 with
                | [] => none
                | c5 :: ws4 =>
                  if c5 = '"' then
                    if ws4.all isWsChar then
                      some (.kv s1.1 s2.1 s3.1 s4.1 s5.1 ws4)
                    else none
                  else none
              else none
          else none

/-- Split of a character stream at newline characters. -/
def splitNl : List Char → List (List Char)
  | [] => [[]]
  | c :: rest =>
      if c = '\n' then [] :: splitNl rest
      else
        match splitNl rest with
        | [] => [[c]]
        | h :: t => (c :: h) :: t

/-- Inverse of `splitNl`: rejoining lines with newline characters. -/
def joinNl : List (List Char) → List Char
  | [] => []
  | [l] => l
  | l :: ls => l ++ '\n' :: joinNl ls

/-- Parsing of a list of lines; fails when any line is invalid. -/
def parseLines : List (List Char) → Option (List MLine)
  | [] => some []
  | l :: rest =>
    match parseLine l, parseLines rest with
    | some m, some ms => some (m :: ms)
    | _, _ => none

/-- Modelled from the spec: `ManifestDocument::load` on file content
(spec §4.1), via line splitting and per-line parsing. -/
def parseDoc (s : List Char) : Option (List MLine) := parseLines (splitNl s)

/-- Modelled from the spec: `ManifestDocument::save`'s serialization of a
loaded document (`doc.to_string()`), reinserting all recorded trivia. -/
def serializeDoc (d : List MLine) : List Char := joinNl (d.map renderLine)

end MetaTool

namespace MetaTool

/-! Association-list lemmas for the TOML table model. -/

theorem getEntry_setEntry_self (d : List (String × Item)) (k : String) (v : Item) :
    getEntry (setEntry d k v) k = some v := by
  induction d with
  | nil => simp [setEntry, getEntry]
  | cons e rest ih =>
    by_cases h : e.1 = k
    · simp [setEntry, h, getEntry]
    · simp [setEntry, h, getEntry, ih]

theorem getEntry_setEntry_ne (d : List (String × Item)) (k k' : String) (v : Item)
    (h : k' ≠ k) : getEntry (setEntry d k v) k' = getEntry d k' := by
  induction d with
  | nil =>
    simp only [setEntry, getEntry]
    rw [if_neg (fun hh => h hh.symm)]
  | cons e rest ih =>
    by_cases he : e.1 = k
    · simp only [setEntry, if_pos he, getEntry]
      rw [if_neg (fun hh => h hh.symm), if_neg (fun hh => h ((he.symm.trans hh).symm))]
    · by_cases he' : e.1 = k' <;> simp [setEntry, he, getEntry, he', ih, h]

theorem setEntry_getEntry_self (d : List (String × Item)) (k : String) (v : Item)
    (h : getEntry d k = some v) : setEntry d k v = d := by
  induction d with
  | nil => simp [getEntry] at h
  | cons e rest ih =>
    by_cases he : e.1 = k
    · simp only [getEntry, if_pos he, Option.some.injEq] at h
      simp only [setEntry, if_pos he]
      rw [← he, ← h]
    · simp only [getEntry, if_neg he] at h
      simp [setEntry, he, ih h]

theorem containsKey_setEntry_self (d : List (String × Item)) (k : String) (v : Item) :
    containsKey (setEntry d k v) k = true := by
  induction d with
  | nil => simp [setEntry, containsKey]
  | cons e rest ih =>
    by_cases h : e.1 = k
    · simp [setEntry, h, containsKey]
    · simp only [setEntry, if_neg h, containsKey, List.any_cons]
      simp only [containsKey] at ih
      simp [ih]

theorem containsKey_setEntry_ne (d : List (String × Item)) (k k' : String) (v : Item)
    (h : k' ≠ k) : containsKey (setEntry d k v) k' = containsKey d k' := by
  induction d with
  | nil =>
    simp only [setEntry, containsKey, List.any_cons, List.any_nil]
    rw [decide_eq_false (fun hh => h hh.symm)]
    simp
  | cons e rest ih =>
    by_cases he : e.1 = k
    · simp only [setEntry, if_pos he, containsKey, List.any_cons]
      rw [decide_eq_false (fun hh => h hh.symm),
        decide_eq_false (fun hh => h ((he.symm.trans hh).symm))]
    · simp only [setEntry, if_neg he, containsKey, List.any_cons]
      simp only [containsKey] at ih
      rw [ih]

theorem containsKey_removeKey_self (d : List (String × Item)) (k : String) :
    containsKey (removeKey d k) k = false := by
  induction d with
  | nil => simp [removeKey, containsKey]
  | cons e rest ih =>
    by_cases h : e.1 = k
    · simpa [removeKey, h] using ih
    · simp only [removeKey, if_neg h, containsKey, List.any_cons]
      simp only [containsKey] at ih
      simp [h, ih]

theorem containsKey_removeKey_ne (d : List (String × Item)) (k k' : String)
    (h : k' ≠ k) : containsKey (removeKey d k) k' = containsKey d k' := by
  induction d with
  | nil => simp [removeKey]
  | cons e rest ih =>
    by_cases he : e.1 = k
    · simp only [removeKey, if_pos he, containsKey, List.any_cons]
      simp only [containsKey] at ih
      rw [ih, decide_eq_false (fun hh => h ((he.symm.trans hh).symm))]
      simp
    · simp only [removeKey, if_neg he, containsKey, List.any_cons]
      simp only [containsKey] at ih
      rw [ih]

theorem getEntry_removeKey_ne (d : List (String × Item)) (k k' : String)
    (h : k' ≠ k) : getEntry (removeKey d k) k' = getEntry d k' := by
  induction d with
  | nil => simp [removeKey]
  | cons e rest ih =>
    by_cases he : e.1 = k
    · simp only [removeKey, if_pos he, getEntry]
      rw [ih, if_neg (fun hh => h ((he.symm.trans hh).symm))]
    · by_cases he' : e.1 = k' <;> simp [removeKey, he, getEntry, he', ih, h]

end MetaTool

namespace MetaTool

/-! Behaviour of the per-declaration rewrite `updateInline`. -/

theorem updateInline_branch_absent (v : List Char) (t : List (String × Item)) :
    containsKey (updateInline v t) "branch" = false := by
  simp only [updateInline]
  set t1 := if containsKey t "version" = true then setEntry t "version" (Item.str v) else t
    with ht1
  by_cases hb : containsKey t1 "branch" = true
  · rw [if_pos hb, containsKey_setEntry_ne _ _ _ _ (by decide)]
    exact containsKey_removeKey_self t1 "branch"
  · rw [if_neg hb]
    have hb' : containsKey t1 "branch" = false := by
      cases hx : containsKey t1 "branch"
      · rfl
      · exact absurd hx hb
    cases hg : getEntry t1 "tag" with
    | none => simpa [hg] using hb'
    | some it =>
      cases it <;>
        simp_all [containsKey_setEntry_ne _ _ _ _ (by decide : ("branch" : String) ≠ "tag")]

theorem updateInline_getEntry_version (v : List Char) (t : List (String × Item))
    (h : containsKey t "version" = true) :
    getEntry (updateInline v t) "version" = some (.str v) := by
  simp only [updateInline, h, if_pos]
  set t1 := setEntry t "version" (Item.str v) with ht1
  have hv1 : getEntry t1 "version" = some (Item.str v) := getEntry_setEntry_self t _ _
  by_cases hb : containsKey t1 "branch" = true
  · rw [if_pos hb, getEntry_setEntry_ne _ _ _ _ (by decide),
      getEntry_removeKey_ne _ _ _ (by decide)]
    exact hv1
  · rw [if_neg hb]
    cases hg : getEntry t1 "tag" with
    | none => simpa [hg] using hv1
    | some it =>
      cases it <;>
        simp_all [getEntry_setEntry_ne _ _ _ _ (by decide : ("version" : String) ≠ "tag")]

theorem updateInline_tag_of_branch (v : List Char) (t : List (String × Item))
    (h : containsKey t "branch" = true) :
    getEntry (updateInline v t) "tag" = some (.str ('v' :: v)) := by
  simp only [updateInline]
  set t1 := if containsKey t "version" = true then setEntry t "version" (Item.str v) else t
    with ht1
  have hb1 : containsKey t1 "branch" = true := by
    rw [ht1]
    by_cases hcv : containsKey t "version" = true
    · rw [if_pos hcv, containsKey_setEntry_ne _ _ _ _ (by decide)]
      exact h
    · rw [if_neg hcv]
      exact h
  rw [if_pos hb1, getEntry_setEntry_self]

theorem updateInline_tag_of_tag (v : List Char) (t : List (String × Item)) (s : List Char)
    (hb : containsKey t "branch" = false)
    (ht : getEntry t "tag" = some (.str s)) :
    getEntry (updateInline v t) "tag" =
      some (.str (if startsWithV s then 'v' :: v else v)) := by
  simp only [updateInline]
  set t1 := if containsKey t "version" = true then setEntry t "version" (Item.str v) else t
    with ht1
  have hb1 : containsKey t1 "branch" = false := by
    rw [ht1]
    by_cases hcv : containsKey t "version" = true
    · rw [if_pos hcv, containsKey_setEntry_ne _ _ _ _ (by decide)]
      exact hb
    · rw [if_neg hcv]
      exact hb
  have ht1tag : getEntry t1 "tag" = some (Item.str s) := by
    rw [ht1]
    by_cases hcv : containsKey t "version" = true
    · rw [if_pos hcv, getEntry_setEntry_ne _ _ _ _ (by decide)]
      exact ht
    · rw [if_neg hcv]
      exact ht
  rw [if_neg (by simp [hb1]), ht1tag]
  exact getEntry_setEntry_self _ _ _

end MetaTool

namespace MetaTool

/-! Access lemmas for the whole-document pass of `update_dependencies`. -/

theorem getEntry_updateDepsTable (members : List String) (v : List Char)
    (tbl : List (String × Item)) (k : String) :
    getEntry (updateDepsTable members v tbl) k =
      (getEntry tbl k).map
        (fun it => if members.contains k then updateDecl v it else it) := by
  induction tbl with
  | nil => simp [updateDepsTable, getEntry]
  | cons e rest ih =>
    simp only [updateDepsTable, List.map_cons] at *
    by_cases hm : e.1 ∈ members
    · by_cases hk : e.1 = k
      · subst hk
        simp [getEntry, hm]
      · simp [getEntry, hm, hk]
        simpa using ih
    · by_cases hk : e.1 = k
      · subst hk
        simp [getEntry, hm]
      · simp [getEntry, hm, hk]
        simpa using ih

theorem getEntry_updateTablesAt_self (members : List String) (v : List Char)
    (doc : List (String × Item)) (n : String) :
    getEntry (updateTablesAt members v doc n) n =
      match getEntry doc n with
      | some (.table t) => some (.table (updateDepsTable members v t))
      | x => x := by
  cases hg : getEntry doc n with
  | none => simp [updateTablesAt, hg]
  | some it =>
    cases it <;> simp [updateTablesAt, hg, getEntry_setEntry_self]

theorem getEntry_updateTablesAt_ne (members : List String) (v : List Char)
    (doc : List (String × Item)) (n n' : String) (h : n' ≠ n) :
    getEntry (updateTablesAt members v doc n) n' = getEntry doc n' := by
  cases hg : getEntry doc n with
  | none => simp [updateTablesAt, hg]
  | some it =>
    cases it <;> simp [updateTablesAt, hg, getEntry_setEntry_ne _ _ _ _ h]

theorem getEntry_update_dependencies (members : List String) (v : List Char)
    (doc : List (String × Item)) (n : String) :
    getEntry (update_dependencies members v doc) n =
      if n ∈ depTables then
        match getEntry doc n with
        | some (.table t) => some (.table (updateDepsTable members v t))
        | x => x
      else getEntry doc n := by
  have hexp : update_dependencies members v doc =
      updateTablesAt members v
        (updateTablesAt members v
          (updateTablesAt members v doc "dependencies") "dev-dependencies")
        "build-dependencies" := by
    simp [update_dependencies, depTables, List.foldl]
  by_cases h1 : n = "dependencies"
  · subst h1
    rw [hexp, getEntry_updateTablesAt_ne _ _ _ _ _ (by decide),
      getEntry_updateTablesAt_ne _ _ _ _ _ (by decide),
      getEntry_updateTablesAt_self, if_pos (by decide)]
  · by_cases h2 : n = "dev-dependencies"
    · subst h2
      rw [hexp, getEntry_updateTablesAt_ne _ _ _ _ _ (by decide),
        getEntry_updateTablesAt_self,
        getEntry_updateTablesAt_ne _ _ _ _ _ (by decide), if_pos (by decide)]
    · by_cases h3 : n = "build-dependencies"
      · subst h3
        rw [hexp, getEntry_updateTablesAt_self,
          getEntry_updateTablesAt_ne _ _ _ _ _ (by decide),
          getEntry_updateTablesAt_ne _ _ _ _ _ (by decide), if_pos (by decide)]
      · have hmem : n ∉ depTables := by
          simp [depTables, h1, h2, h3]
        rw [hexp, getEntry_updateTablesAt_ne _ _ _ _ _ h3,
          getEntry_updateTablesAt_ne _ _ _ _ _ h2,
          getEntry_updateTablesAt_ne _ _ _ _ _ h1, if_neg hmem]

end MetaTool

namespace MetaTool

/-- Shared access fact: a known-package declaration found in one of the
dependency tables is rewritten by `updateDecl` inside the updated document. -/
theorem update_deps_decl (members : List String) (v : List Char)
    (doc tbl : List (String × Item)) (tname depKey : String) (it : Item)
    (htn : tname ∈ depTables)
    (hdoc : getEntry doc tname = some (.table tbl))
    (hit : getEntry tbl depKey = some it)
    (hmem : depKey ∈ members) :
    getEntry (update_dependencies members v doc) tname =
      some (.table (updateDepsTable members v tbl)) ∧
    getEntry (updateDepsTable members v tbl) depKey = some (updateDecl v it) := by
  constructor
  · rw [getEntry_update_dependencies, if_pos htn, hdoc]
  · rw [getEntry_updateDepsTable, hit]
    simp [hmem]

/-- C3: for every inline-attribute-set dependency declaration whose key is in
the known-package set, `update_dependencies` rewrites it with `updateInline`;
after the rewrite the `branch` attribute is always absent (so no declaration
ever carries both `tag` and `branch`), a declaration that had a `branch`
attribute gets `tag = "v" + new_version`, and, independently, a `version`
attribute is updated whenever present. -/
theorem update_dependencies_branch_to_tag
    (members : List String) (v : List Char) (doc tbl t : List (String × Item))
    (tname depKey : String)
    (htn : tname ∈ depTables)
    (hdoc : getEntry doc tname = some (.table tbl))
    (hmem : depKey ∈ members)
    (hit : getEntry tbl depKey = some (.inlineTable t)) :
    ∃ tbl', getEntry (update_dependencies members v doc) tname = some (.table tbl') ∧
      getEntry tbl' depKey = some (.inlineTable (updateInline v t)) ∧
      containsKey (updateInline v t) "branch" = false ∧
      (containsKey t "branch" = true →
        getEntry (updateInline v t) "tag" = some (.str ('v' :: v))) ∧
      (containsKey t "version" = true →
        getEntry (updateInline v t) "version" = some (.str v)) := by
  obtain ⟨h1, h2⟩ := update_deps_decl members v doc tbl tname depKey _ htn hdoc hit hmem
  exact ⟨_, h1, by simpa [updateDecl] using h2, updateInline_branch_absent v t,
    fun hb => updateInline_tag_of_branch v t hb,
    fun hv => updateInline_getEntry_version v t hv⟩

theorem update_dependencies_branch_to_tag_witness :
    ∃ tbl', getEntry (update_dependencies ["dep-a"] ['0', '.', '2', '.', '0']
        [("dependencies", Item.table
          [("dep-a", Item.inlineTable [("branch", Item.str ['m'])])])])
        "dependencies" = some (Item.table tbl') ∧
      getEntry tbl' "dep-a" = some (Item.inlineTable
        (updateInline ['0', '.', '2', '.', '0'] [("branch", Item.str ['m'])])) ∧
      containsKey (updateInline ['0', '.', '2', '.', '0']
        [("branch", Item.str ['m'])]) "branch" = false ∧
      (containsKey [("branch", Item.str ['m'])] "branch" = true →
        getEntry (updateInline ['0', '.', '2', '.', '0'] [("branch", Item.str ['m'])])
          "tag" = some (.str ('v' :: ['0', '.', '2', '.', '0']))) ∧
      (containsKey [("branch", Item.str ['m'])] "version" = true →
        getEntry (updateInline ['0', '.', '2', '.', '0'] [("branch", Item.str ['m'])])
          "version" = some (.str ['0', '.', '2', '.', '0'])) :=
  update_dependencies_branch_to_tag ["dep-a"] ['0', '.', '2', '.', '0']
    [("dependencies", Item.table [("dep-a", Item.inlineTable [("branch", Item.str ['m'])])])]
    [("dep-a", Item.inlineTable [("branch", Item.str ['m'])])]
    [("branch", Item.str ['m'])] "dependencies" "dep-a"
    (by decide) rfl (by decide) rfl

/-- C4: for an inline-attribute-set dependency declaration of a known package
that has no `branch` attribute but a string `tag` attribute,
`update_dependencies` preserves the existing v-prefix convention: the new tag
is `"v" + new_version` when the old tag starts with `v`, and the bare version
string otherwise. -/
theorem update_dependencies_tag_prefix_preserved
    (members : List String) (v : List Char) (doc tbl t : List (String × Item))
    (tname depKey : String) (s : List Char)
    (htn : tname ∈ depTables)
    (hdoc : getEntry doc tname = some (.table tbl))
    (hmem : depKey ∈ members)
    (hit : getEntry tbl depKey = some (.inlineTable t))
    (hb : containsKey t "branch" = false)
    (ht : getEntry t "tag" = some (.str s)) :
    ∃ tbl', getEntry (update_dependencies members v doc) tname = some (.table tbl') ∧
      getEntry tbl' depKey = some (.inlineTable (updateInline v t)) ∧
      getEntry (updateInline v t) "tag" =
        some (.str (if startsWithV s then 'v' :: v else v)) := by
  obtain ⟨h1, h2⟩ := update_deps_decl members v doc tbl tname depKey _ htn hdoc hit hmem
  exact ⟨_, h1, by simpa [updateDecl] using h2, updateInline_tag_of_tag v t s hb ht⟩

theorem update_dependencies_tag_prefix_preserved_witness :
    (∃ tbl', getEntry (update_dependencies ["g"] ['0', '.', '2']
        [("dependencies", Item.table
          [("g", Item.inlineTable [("tag", Item.str ['v', '0', '.', '1'])])])])
        "dependencies" = some (Item.table tbl') ∧
      getEntry tbl' "g" = some (Item.inlineTable
        (updateInline ['0', '.', '2'] [("tag", Item.str ['v', '0', '.', '1'])])) ∧
      getEntry (updateInline ['0', '.', '2'] [("tag", Item.str ['v', '0', '.', '1'])])
        "tag" = some (.str (if startsWithV ['v', '0', '.', '1']
          then 'v' :: ['0', '.', '2'] else ['0', '.', '2']))) :=
  update_dependencies_tag_prefix_preserved ["g"] ['0', '.', '2']
    [("dependencies", Item.table [("g", Item.inlineTable [("tag", Item.str ['v', '0', '.', '1'])])])]
    [("g", Item.inlineTable [("tag", Item.str ['v', '0', '.', '1'])])]
    [("tag", Item.str ['v', '0', '.', '1'])] "dependencies" "g"
    ['v', '0', '.', '1'] (by decide) rfl (by decide) rfl rfl rfl

/-- C5: a dependency declaration whose key is not in the known-package set is
left unchanged by `update_dependencies`, in every table and regardless of the
declaration's shape or contents. -/
theorem update_dependencies_frame
    (members : List String) (v : List Char) (doc tbl : List (String × Item))
    (tname depKey : String)
    (hdoc : getEntry doc tname = some (.table tbl))
    (hmem : depKey ∉ members) :
    ∃ tbl', getEntry (update_dependencies members v doc) tname = some (.table tbl') ∧
      getEntry tbl' depKey = getEntry tbl depKey := by
  by_cases htn : tname ∈ depTables
  · refine ⟨updateDepsTable members v tbl, ?_, ?_⟩
    · rw [getEntry_update_dependencies, if_pos htn, hdoc]
    · rw [getEntry_updateDepsTable]
      simp [hmem]
  · refine ⟨tbl, ?_, rfl⟩
    rw [getEntry_update_dependencies, if_neg htn]
    exact hdoc

theorem update_dependencies_frame_witness :
    ∃ tbl', getEntry (update_dependencies ["dep-a"] ['0', '.', '2']
        [("dependencies", Item.table [("external-dep", Item.str ['1', '.', '0'])])])
        "dependencies" = some (Item.table tbl') ∧
      getEntry tbl' "external-dep" =
        getEntry [("external-dep", Item.str ['1', '.', '0'])] "external-dep" :=
  update_dependencies_frame ["dep-a"] ['0', '.', '2']
    [("dependencies", Item.table [("external-dep", Item.str ['1', '.', '0'])])]
    [("external-dep", Item.str ['1', '.', '0'])] "dependencies" "external-dep"
    rfl (by decide)

end MetaTool

namespace MetaTool

/-- C10 counterexample: on a loadable manifest whose `package` key holds a
plain value (`package = "hi"` is valid TOML), `bump_version` does not return
success: the underlying `toml_edit` index operation panics (modelled as
`none`) instead of creating a table. -/
theorem bump_version_panics_on_value_package :
    bump_version [("package", Item.str ['h', 'i'])] ['0', '.', '2'] = none := rfl

/-- C10 (amended): `bump_version` succeeds whenever the `package` item is
absent, `Item::None`, or table-like, creating the package table and the
version field when missing (via index insertion) and setting the version. -/
theorem bump_version_total_on_tablelike (doc : List (String × Item)) (v : List Char)
    (h : match (getEntry doc "package").getD Item.noneItem with
         | .table _ => True
         | .inlineTable _ => True
         | .noneItem => True
         | _ => False) :
    ∃ d', bump_version doc v = some d' ∧ getVersionItem d' = some (.str v) := by
  cases hpk : (getEntry doc "package").getD Item.noneItem with
  | str s => rw [hpk] at h; exact h.elim
  | scalar n => rw [hpk] at h; exact h.elim
  | table t =>
    refine ⟨setEntry doc "package" (.table (setEntry t "version" (.str v))), ?_, ?_⟩
    · simp [bump_version, hpk, itemSetKey]
    · simp [getVersionItem, getEntry_setEntry_self, tableGet]
  | inlineTable t =>
    refine ⟨setEntry doc "package" (.inlineTable (setEntry t "version" (.str v))), ?_, ?_⟩
    · simp [bump_version, hpk, itemSetKey]
    · simp [getVersionItem, getEntry_setEntry_self, tableGet]
  | noneItem =>
    refine ⟨setEntry doc "package" (.table (setEntry [] "version" (.str v))), ?_, ?_⟩
    · simp [bump_version, hpk, itemSetKey]
    · simp [getVersionItem, getEntry_setEntry_self, tableGet]

theorem bump_version_total_on_tablelike_witness :
    ∃ d', bump_version [] ['1'] = some d' ∧ getVersionItem d' = some (.str ['1']) :=
  bump_version_total_on_tablelike [] ['1'] True.intro

end MetaTool

namespace MetaTool

/-! Idempotence of the editor operations. -/

theorem containsKey_updateInline_version (v : List Char) (t : List (String × Item)) :
    containsKey (updateInline v t) "version" = containsKey t "version" := by
  simp only [updateInline]
  set t1 := if containsKey t "version" = true then setEntry t "version" (Item.str v) else t
    with ht1
  have h1 : containsKey t1 "version" = containsKey t "version" := by
    rw [ht1]
    by_cases hcv : containsKey t "version" = true
    · rw [if_pos hcv, containsKey_setEntry_self, hcv]
    · rw [if_neg hcv]
  by_cases hb : containsKey t1 "branch" = true
  · rw [if_pos hb, containsKey_setEntry_ne _ _ _ _ (by decide),
      containsKey_removeKey_ne _ _ _ (by decide), h1]
  · rw [if_neg hb]
    cases hg : getEntry t1 "tag" with
    | none => simpa [hg] using h1
    | some it =>
      cases it <;>
        simp_all [containsKey_setEntry_ne _ _ _ _ (by decide : ("version" : String) ≠ "tag")]

theorem getEntry_updateInline_tag_frame (v : List Char) (t : List (String × Item))
    (hb : containsKey t "branch" = false)
    (ht : ∀ s, getEntry t "tag" ≠ some (Item.str s)) :
    getEntry (updateInline v t) "tag" = getEntry t "tag" := by
  simp only [updateInline]
  set t1 := if containsKey t "version" = true then setEntry t "version" (Item.str v) else t
    with ht1
  have hb1 : containsKey t1 "branch" = false := by
    rw [ht1]
    by_cases hcv : containsKey t "version" = true
    · rw [if_pos hcv, containsKey_setEntry_ne _ _ _ _ (by decide)]
      exact hb
    · rw [if_neg hcv]
      exact hb
  have htag : getEntry t1 "tag" = getEntry t "tag" := by
    rw [ht1]
    by_cases hcv : containsKey t "version" = true
    · rw [if_pos hcv, getEntry_setEntry_ne _ _ _ _ (by decide)]
    · rw [if_neg hcv]
  rw [if_neg (by simp [hb1])]
  cases hg : getEntry t1 "tag" with
  | none => simpa [hg] using htag
  | some it =>
    cases it with
    | str s => exact absurd (htag ▸ hg) (ht s)
    | scalar n => simpa [hg] using htag
    | inlineTable t2 => simpa [hg] using htag
    | table t2 => simpa [hg] using htag
    | noneItem => simpa [hg] using htag

theorem updateInline_idem (v : List Char) (t : List (String × Item))
    (hv : startsWithV v = false) :
    updateInline v (updateInline v t) = updateInline v t := by
  set r := updateInline v t with hr
  have hCB : containsKey r "branch" = false := hr ▸ updateInline_branch_absent v t
  conv_lhs => rw [updateInline]
  have hr1 : (if containsKey r "version" = true
      then setEntry r "version" (Item.str v) else r) = r := by
    by_cases hcv : containsKey t "version" = true
    · have hcv' : containsKey r "version" = true := by
        rw [hr, containsKey_updateInline_version]
        exact hcv
      rw [if_pos hcv']
      exact setEntry_getEntry_self r _ _ (hr ▸ updateInline_getEntry_version v t hcv)
    · have hcv' : containsKey r "version" = false := by
        rw [hr, containsKey_updateInline_version]
        exact Bool.eq_false_iff.mpr hcv
      rw [if_neg (by simp [hcv'])]
  simp only [hr1, hCB, Bool.false_eq_true, if_false]
  by_cases hbt : containsKey t "branch" = true
  · have htag : getEntry r "tag" = some (Item.str ('v' :: v)) :=
      hr ▸ updateInline_tag_of_branch v t hbt
    rw [htag]
    show setEntry r "tag"
      (Item.str (if startsWithV ('v' :: v) = true then 'v' :: v else v)) = r
    have hval : (if startsWithV ('v' :: v) = true then 'v' :: v else v) = 'v' :: v := by
      simp [startsWithV]
    rw [hval]
    exact setEntry_getEntry_self r _ _ htag
  · have hbt' : containsKey t "branch" = false := Bool.eq_false_iff.mpr hbt
    cases hg : getEntry t "tag" with
    | some it =>
      cases it with
      | str s =>
        have htag : getEntry r "tag" =
            some (Item.str (if startsWithV s then 'v' :: v else v)) :=
          hr ▸ updateInline_tag_of_tag v t s hbt' hg
        rw [htag]
        show setEntry r "tag"
          (Item.str (if startsWithV (if startsWithV s = true then 'v' :: v else v) = true
            then 'v' :: v else v)) = r
        have hval : (if startsWithV (if startsWithV s = true then 'v' :: v else v) = true
            then 'v' :: v else v) = (if startsWithV s = true then 'v' :: v else v) := by
          cases hs : startsWithV s
          · simp [hv]
          · simp [startsWithV]
        rw [hval]
        exact setEntry_getEntry_self r _ _ htag
      | scalar n =>
        have htag : getEntry r "tag" = some (Item.scalar n) := by
          rw [hr, getEntry_updateInline_tag_frame v t hbt' (by simp [hg]), hg]
        rw [htag]
      | inlineTable t2 =>
        have htag : getEntry r "tag" = some (Item.inlineTable t2) := by
          rw [hr, getEntry_updateInline_tag_frame v t hbt' (by simp [hg]), hg]
        rw [htag]
      | table t2 =>
        have htag : getEntry r "tag" = some (Item.table t2) := by
          rw [hr, getEntry_updateInline_tag_frame v t hbt' (by simp [hg]), hg]
        rw [htag]
      | noneItem =>
        have htag : getEntry r "tag" = some Item.noneItem := by
          rw [hr, getEntry_updateInline_tag_frame v t hbt' (by simp [hg]), hg]
        rw [htag]
    | none =>
      have htag : getEntry r "tag" = none := by
        rw [hr, getEntry_updateInline_tag_frame v t hbt' (by simp [hg]), hg]
      rw [htag]

end MetaTool

namespace MetaTool

theorem updateDecl_idem (v : List Char) (hv : startsWithV v = false) :
    ∀ it, updateDecl v (updateDecl v it) = updateDecl v it
  | .inlineTable t => congrArg Item.inlineTable (updateInline_idem v t hv)
  | .str _ => rfl
  | .scalar _ => rfl
  | .table _ => rfl
  | .noneItem => rfl

theorem updateDepsTable_idem (members : List String) (v : List Char)
    (tbl : List (String × Item)) (hv : startsWithV v = false) :
    updateDepsTable members v (updateDepsTable members v tbl) =
      updateDepsTable members v tbl := by
  simp only [updateDepsTable, List.map_map]
  apply List.map_congr_left
  intro e he
  by_cases hm : e.1 ∈ members
  · simp [Function.comp, hm, updateDecl_idem v hv]
  · simp [Function.comp, hm]

theorem updateTablesAt_fixed (members : List String) (v : List Char)
    (d : List (String × Item)) (n : String)
    (h : ∀ t, getEntry d n = some (.table t) → updateDepsTable members v t = t) :
    updateTablesAt members v d n = d := by
  cases hg : getEntry d n with
  | none => simp [updateTablesAt, hg]
  | some it =>
    cases it with
    | table t =>
      simp only [updateTablesAt, hg]
      rw [h t hg]
      exact setEntry_getEntry_self d n _ hg
    | str s => simp [updateTablesAt, hg]
    | scalar m => simp [updateTablesAt, hg]
    | inlineTable t => simp [updateTablesAt, hg]
    | noneItem => simp [updateTablesAt, hg]

theorem update_dependencies_idem (members : List String) (v : List Char)
    (doc : List (String × Item)) (hv : startsWithV v = false) :
    update_dependencies members v (update_dependencies members v doc) =
      update_dependencies members v doc := by
  set Y := update_dependencies members v doc with hY
  have hfix : ∀ n, n ∈ depTables → updateTablesAt members v Y n = Y := by
    intro n hn
    apply updateTablesAt_fixed
    intro t hgt
    rw [hY, getEntry_update_dependencies, if_pos hn] at hgt
    cases hg0 : getEntry doc n with
    | none =>
      rw [hg0] at hgt
      exact absurd hgt (by simp)
    | some it0 =>
      cases it0 with
      | table t0 =>
        rw [hg0] at hgt
        simp only [Option.some.injEq, Item.table.injEq] at hgt
        rw [← hgt]
        exact updateDepsTable_idem members v t0 hv
      | str s => rw [hg0] at hgt; exact absurd hgt (by simp)
      | scalar m => rw [hg0] at hgt; exact absurd hgt (by simp)
      | inlineTable t0 => rw [hg0] at hgt; exact absurd hgt (by simp)
      | noneItem => rw [hg0] at hgt; exact absurd hgt (by simp)
  have hexp : update_dependencies members v Y =
      updateTablesAt members v
        (updateTablesAt members v
          (updateTablesAt members v Y "dependencies") "dev-dependencies")
        "build-dependencies" := by
    simp [update_dependencies, depTables, List.foldl]
  rw [hexp, hfix "dependencies" (by decide), hfix "dev-dependencies" (by decide),
    hfix "build-dependencies" (by decide)]

theorem bump_version_idem (doc : List (String × Item)) (v : List Char)
    (d' : List (String × Item)) (h : bump_version doc v = some d') :
    bump_version d' v = some d' := by
  simp only [bump_version] at h
  cases hpk : (getEntry doc "package").getD Item.noneItem with
  | str s => rw [hpk] at h; exact absurd h (by simp [itemSetKey])
  | scalar n => rw [hpk] at h; exact absurd h (by simp [itemSetKey])
  | table t =>
    rw [hpk] at h
    simp only [itemSetKey, Option.some.injEq] at h
    have hd' : d' = setEntry doc "package" (.table (setEntry t "version" (.str v))) := h.symm
    have hget : getEntry d' "package" =
        some (Item.table (setEntry t "version" (Item.str v))) := by
      rw [hd']
      exact getEntry_setEntry_self doc _ _
    simp only [bump_version, hget, Option.getD_some, itemSetKey, Option.some.injEq]
    rw [setEntry_getEntry_self _ _ _ (getEntry_setEntry_self t "version" (Item.str v))]
    exact (setEntry_getEntry_self d' _ _ hget)
  | inlineTable t =>
    rw [hpk] at h
    simp only [itemSetKey, Option.some.injEq] at h
    have hd' : d' = setEntry doc "package" (.inlineTable (setEntry t "version" (.str v))) :=
      h.symm
    have hget : getEntry d' "package" =
        some (Item.inlineTable (setEntry t "version" (Item.str v))) := by
      rw [hd']
      exact getEntry_setEntry_self doc _ _
    simp only [bump_version, hget, Option.getD_some, itemSetKey, Option.some.injEq]
    rw [setEntry_getEntry_self _ _ _ (getEntry_setEntry_self t "version" (Item.str v))]
    exact (setEntry_getEntry_self d' _ _ hget)
  | noneItem =>
    rw [hpk] at h
    simp only [itemSetKey, Option.some.injEq] at h
    have hd' : d' = setEntry doc "package" (.table (setEntry [] "version" (.str v))) := h.symm
    have hget : getEntry d' "package" =
        some (Item.table (setEntry [] "version" (Item.str v))) := by
      rw [hd']
      exact getEntry_setEntry_self doc _ _
    simp only [bump_version, hget, Option.getD_some, itemSetKey, Option.some.injEq]
    rw [setEntry_getEntry_self _ _ _ (getEntry_setEntry_self [] "version" (Item.str v))]
    exact (setEntry_getEntry_self d' _ _ hget)

/-- C9: the public editor operations are idempotent for the same inputs
(semver version strings never start with `v`, hence the hypothesis on
`newVersion`): applying `update_dependencies` twice with the same known
package set and version equals applying it once, including the tag-prefix
and branch-to-tag rewrites, and re-running `bump_version` on its own output
leaves the document unchanged. -/
theorem editor_operations_idempotent (members : List String) (v : List Char)
    (doc : List (String × Item)) (hv : startsWithV v = false) :
    update_dependencies members v (update_dependencies members v doc) =
      update_dependencies members v doc ∧
    ∀ d', bump_version doc v = some d' → bump_version d' v = some d' :=
  ⟨update_dependencies_idem members v doc hv,
   fun d' h => bump_version_idem doc v d' h⟩

theorem editor_operations_idempotent_witness :
    (update_dependencies ["d"] ['0', '.', '2']
        (update_dependencies ["d"] ['0', '.', '2']
          [("dependencies", Item.table
            [("d", Item.inlineTable [("branch", Item.str ['m'])])])]) =
      update_dependencies ["d"] ['0', '.', '2']
        [("dependencies", Item.table
          [("d", Item.inlineTable [("branch", Item.str ['m'])])])]) ∧
    bump_version [("package", Item.table [("version", Item.str ['1'])])] ['2'] =
      some [("package", Item.table [("version", Item.str ['2'])])] :=
  ⟨(editor_operations_idempotent ["d"] ['0', '.', '2']
      [("dependencies", Item.table
        [("d", Item.inlineTable [("branch", Item.str ['m'])])])] (by decide)).1,
   (editor_operations_idempotent []
      ['2'] [("package", Item.table [("version", Item.str ['1'])])] (by decide)).2
     [("package", Item.table [("version", Item.str ['2'])])] rfl⟩

end MetaTool

namespace MetaTool

/-! Characterization of the repository-grouping loop. -/

theorem getUniqueAux_spec (findRoot : String → Except String (Option String))
    (members : List String) :
    ∀ acc : List String × List String,
      (∀ m ∈ members, ∃ r, findRoot m = Except.ok r) →
      ∃ paths, getUniqueAux findRoot members acc =
          Except.ok (paths, acc.2 ++ members.filter
            (fun m => match findRoot m with | .ok none => true | _ => false)) ∧
        (acc.1.Nodup → paths.Nodup) ∧
        (∀ r, r ∈ paths ↔ r ∈ acc.1 ∨ ∃ m ∈ members, findRoot m = Except.ok (some r)) := by
  induction members with
  | nil =>
    intro acc h
    exact ⟨acc.1, by simp [getUniqueAux], fun hn => hn, fun r => by simp⟩
  | cons m rest ih =>
    intro acc h
    obtain ⟨r0, hr0⟩ := h m (List.mem_cons_self m rest)
    have hrest : ∀ m' ∈ rest, ∃ r, findRoot m' = Except.ok r :=
      fun m' hm' => h m' (List.mem_cons_of_mem m hm')
    cases r0 with
    | none =>
      obtain ⟨paths, heq, hnd, hmem⟩ := ih (acc.1, acc.2 ++ [m]) hrest
      refine ⟨paths, ?_, hnd, ?_⟩
      · simp only [getUniqueAux, hr0]
        rw [heq]
        simp [List.filter_cons, hr0]
      · intro r
        rw [hmem r]
        simp only [List.mem_cons]
        constructor
        · rintro (h1 | ⟨m', hm', hfm⟩)
          · exact Or.inl h1
          · exact Or.inr ⟨m', Or.inr hm', hfm⟩
        · rintro (h1 | ⟨m', hm' | hm', hfm⟩)
          · exact Or.inl h1
          · subst hm'
            rw [hr0] at hfm
            exact absurd hfm (by simp)
          · exact Or.inr ⟨m', hm', hfm⟩
    | some root =>
      by_cases hin : root ∈ acc.1
      · obtain ⟨paths, heq, hnd, hmem⟩ := ih acc hrest
        refine ⟨paths, ?_, hnd, ?_⟩
        · simp only [getUniqueAux, hr0, if_pos hin]
          rw [heq]
          simp [List.filter_cons, hr0]
        · intro r
          rw [hmem r]
          simp only [List.mem_cons]
          constructor
          · rintro (h1 | ⟨m', hm', hfm⟩)
            · exact Or.inl h1
            · exact Or.inr ⟨m', Or.inr hm', hfm⟩
          · rintro (h1 | ⟨m', hm' | hm', hfm⟩)
            · exact Or.inl h1
            · subst hm'
              rw [hr0] at hfm
              simp only [Except.ok.injEq, Option.some.injEq] at hfm
              exact Or.inl (hfm ▸ hin)
            · exact Or.inr ⟨m', hm', hfm⟩
      · obtain ⟨paths, heq, hnd, hmem⟩ := ih (acc.1 ++ [root], acc.2) hrest
        refine ⟨paths, ?_, ?_, ?_⟩
        · simp only [getUniqueAux, hr0, if_neg hin]
          rw [heq]
          simp [List.filter_cons, hr0]
        · intro hnd0
          apply hnd
          simp [List.nodup_append, hnd0, hin]
        · intro r
          rw [hmem r]
          simp only [List.mem_append, List.mem_cons]
          constructor
          · rintro ((h1 | h1 | h0) | ⟨m', hm', hfm⟩)
            · exact Or.inl h1
            · subst h1
              exact Or.inr ⟨m, Or.inl rfl, hr0⟩
            · exact absurd h0 (List.not_mem_nil r)
            · exact Or.inr ⟨m', Or.inr hm', hfm⟩
          · rintro (h1 | ⟨m', hm' | hm', hfm⟩)
            · exact Or.inl (Or.inl h1)
            · subst hm'
              rw [hr0] at hfm
              simp only [Except.ok.injEq, Option.some.injEq] at hfm
              exact Or.inl (Or.inr (Or.inl hfm.symm))
            · exact Or.inr ⟨m', hm', hfm⟩

/-- C6: provided the canonicalization of every member succeeds (no hard
error), `get_unique_repos` returns the distinct repository roots found for
the members, lexicographically sorted and without duplicates, while members
with no discoverable root are exactly the ones warned about; they are
omitted from the output and do not abort the run. -/
theorem get_unique_repos_spec (findRoot : String → Except String (Option String))
    (members : List String)
    (h : ∀ m ∈ members, ∃ r, findRoot m = Except.ok r) :
    ∃ roots, get_unique_repos findRoot members =
        Except.ok (roots, members.filter
          (fun m => match findRoot m with | .ok none => true | _ => false)) ∧
      List.Sorted (· ≤ ·) roots ∧ roots.Nodup ∧
      (∀ r, r ∈ roots ↔ ∃ m ∈ members, findRoot m = Except.ok (some r)) := by
  obtain ⟨paths, heq, hnd, hmem⟩ := getUniqueAux_spec findRoot members ([], []) h
  refine ⟨List.insertionSort (· ≤ ·) paths, ?_, ?_, ?_, ?_⟩
  · simp only [get_unique_repos, heq, List.nil_append]
  · exact List.sorted_insertionSort _ _
  · exact ((List.perm_insertionSort _ paths).nodup_iff).mpr (hnd List.nodup_nil)
  · intro r
    rw [List.Perm.mem_iff (List.perm_insertionSort _ paths), hmem r]
    simp

theorem get_unique_repos_spec_witness :
    ∃ roots, get_unique_repos (fun _ => Except.ok none) ["m"] =
        Except.ok (roots, (["m"] : List String).filter
          (fun m => match (fun _ => (Except.ok none : Except String (Option String))) m with
                    | .ok none => true
                    | _ => false)) ∧
      List.Sorted (· ≤ ·) roots ∧ roots.Nodup ∧
      (∀ r, r ∈ roots ↔ ∃ m ∈ (["m"] : List String),
        (fun _ => (Except.ok none : Except String (Option String))) m =
          Except.ok (some r)) :=
  get_unique_repos_spec (fun _ => Except.ok none) ["m"] (fun m hm => ⟨none, rfl⟩)

end MetaTool

namespace MetaTool

/-! Characterization of the upward repository-root walk. -/

theorem walkUp_unfold (hasGit : List String → Bool) (c : List String) :
    walkUp hasGit c = if hasGit c then some c
      else if h : c = [] then none else walkUp hasGit c.dropLast := by
  rw [walkUp]

theorem take_shrink (q c : List String) (h : ∃ k, q = c.take k) :
    q = c ∨ ∃ k, q = c.dropLast.take k := by
  obtain ⟨k, rfl⟩ := h
  by_cases hk : c.length ≤ k
  · exact Or.inl (List.take_of_length_le hk)
  · right
    refine ⟨k, ?_⟩
    rw [List.dropLast_eq_take, List.take_take]
    congr 1
    omega

theorem take_expand (q c : List String) (h : ∃ k, q = c.dropLast.take k) :
    ∃ k, q = c.take k := by
  obtain ⟨k, rfl⟩ := h
  rw [List.dropLast_eq_take, List.take_take]
  exact ⟨min k (c.length - 1), rfl⟩

theorem walkUp_some_iff (hasGit : List String → Bool) :
    ∀ c r : List String, walkUp hasGit c = some r ↔
      ((∃ k, r = c.take k) ∧ hasGit r = true ∧
        ∀ q, (∃ k, q = c.take k) → r.length < q.length → hasGit q = false)
  | c, r => by
    rw [walkUp_unfold]
    by_cases hg : hasGit c = true
    · rw [if_pos hg]
      constructor
      · intro h
        rw [Option.some.injEq] at h
        subst h
        refine ⟨⟨c.length, (List.take_length c).symm⟩, hg, ?_⟩
        intro q hq hlen
        obtain ⟨k, rfl⟩ := hq
        rw [List.length_take] at hlen
        exact absurd (lt_of_lt_of_le hlen (min_le_right _ _)) (lt_irrefl _)
      · rintro ⟨⟨k, rfl⟩, hgr, hmax⟩
        by_cases hk : c.length ≤ k
        · rw [List.take_of_length_le hk]
        · exfalso
          have hlen : (c.take k).length < c.length := by
            rw [List.length_take]
            omega
          have hfalse := hmax c ⟨c.length, (List.take_length c).symm⟩ hlen
          rw [hg] at hfalse
          exact absurd hfalse (by simp)
    · have hgc : hasGit c = false := Bool.eq_false_iff.mpr hg
      rw [if_neg hg]
      by_cases hnil : c = []
      · subst hnil
        rw [dif_pos rfl]
        constructor
        · intro h
          exact absurd h (by simp)
        · rintro ⟨⟨k, rfl⟩, hgr, hmax⟩
          rw [List.take_nil] at hgr
          rw [hgc] at hgr
          exact absurd hgr (by simp)
      · rw [dif_neg hnil, walkUp_some_iff hasGit c.dropLast r]
        constructor
        · rintro ⟨hanc, hgr, hmax⟩
          refine ⟨take_expand r c hanc, hgr, ?_⟩
          intro q hq hlen
          rcases take_shrink q c hq with rfl | hq'
          · exact hgc
          · exact hmax q hq' hlen
        · rintro ⟨hanc, hgr, hmax⟩
          have hanc' : ∃ k, r = c.dropLast.take k := by
            rcases take_shrink r c hanc with rfl | h'
            · rw [hgc] at hgr
              exact absurd hgr (by simp)
            · exact h'
          refine ⟨hanc', hgr, ?_⟩
          intro q hq hlen
          exact hmax q (take_expand q c hq) hlen
termination_by c => c.length
decreasing_by
  simp only [List.length_dropLast]
  exact Nat.sub_lt (List.length_pos.mpr hnil) Nat.one_pos

theorem walkUp_none_iff (hasGit : List String → Bool) :
    ∀ c : List String, walkUp hasGit c = none ↔
      ∀ q, (∃ k, q = c.take k) → hasGit q = false
  | c => by
    rw [walkUp_unfold]
    by_cases hg : hasGit c = true
    · rw [if_pos hg]
      constructor
      · intro h
        exact absurd h (by simp)
      · intro hall
        have := hall c ⟨c.length, (List.take_length c).symm⟩
        rw [hg] at this
        exact absurd this (by simp)
    · have hgc : hasGit c = false := Bool.eq_false_iff.mpr hg
      rw [if_neg hg]
      by_cases hnil : c = []
      · subst hnil
        rw [dif_pos rfl]
        constructor
        · intro _ q hq
          obtain ⟨k, rfl⟩ := hq
          rw [List.take_nil]
          exact hgc
        · intro _
          rfl
      · rw [dif_neg hnil, walkUp_none_iff hasGit c.dropLast]
        constructor
        · intro hall q hq
          rcases take_shrink q c hq with rfl | hq'
          · exact hgc
          · exact hall q hq'
        · intro hall q hq
          exact hall q (take_expand q c hq)
termination_by c => c.length
decreasing_by
  simp only [List.length_dropLast]
  exact Nat.sub_lt (List.length_pos.mpr hnil) Nat.one_pos

/-- C7: `find_git_root` canonicalizes its input (a canonicalization failure is
a hard error, not a `None` result) and then walks parent directories of the
canonical path: it returns the deepest ancestor directory (the longest
component-list `take`) containing the `.git` marker, and `None` exactly when
no ancestor up to the filesystem root has it; the walk is a total function,
so it always terminates. -/
theorem find_git_root_spec (canon : List String → Option (List String))
    (hasGit : List String → Bool) (p : List String) :
    (canon p = none →
      find_git_root canon hasGit p = Except.error "Failed to canonicalize path") ∧
    ∀ c, canon p = some c →
      (∀ r, (find_git_root canon hasGit p = Except.ok (some r) ↔
        ((∃ k, r = c.take k) ∧ hasGit r = true ∧
          ∀ q, (∃ k, q = c.take k) → r.length < q.length → hasGit q = false))) ∧
      (find_git_root canon hasGit p = Except.ok none ↔
        ∀ q, (∃ k, q = c.take k) → hasGit q = false) := by
  constructor
  · intro h
    simp [find_git_root, h]
  · intro c hc
    constructor
    · intro r
      simp only [find_git_root, hc, Except.ok.injEq]
      exact walkUp_some_iff hasGit c r
    · simp only [find_git_root, hc, Except.ok.injEq]
      exact walkUp_none_iff hasGit c

theorem find_git_root_spec_witness :
    find_git_root (fun _ => some ["home", "user"]) (fun l => decide (l = ["home"]))
      ["x"] = Except.ok (some ["home"]) :=
  (((find_git_root_spec (fun _ => some ["home", "user"])
      (fun l => decide (l = ["home"])) ["x"]).2 ["home", "user"] rfl).1 ["home"]).mpr
    ⟨⟨1, rfl⟩, by decide, fun q hq hlen => by
      obtain ⟨k, rfl⟩ := hq
      have hlen' : 1 < min k 2 := by simpa [List.length_take] using hlen
      have hq2 : (["home", "user"] : List String).take k = ["home", "user"] :=
        List.take_of_length_le (by simp; omega)
      rw [hq2]
      decide⟩

end MetaTool

namespace MetaTool

/-- C1: with an empty file list, `commit` succeeds and issues no git
invocation at all (so the repository state is unchanged and no commit is
created); with a non-empty list it first stages exactly the given files (the
only staging invocation is `git add <files>`, never a stage-all), then
commits with the given message, and it succeeds exactly when both the staging
and the commit invocations succeed. -/
theorem commit_spec (run : List String → Bool) (message : String)
    (files : List String) :
    (files = [] → commit run message files = (Except.ok (), [])) ∧
    (files ≠ [] →
      (commit run message files).2.head? = some ("add" :: files) ∧
      (∀ cmd ∈ (commit run message files).2,
        cmd = "add" :: files ∨ cmd = ["commit", "-m", message]) ∧
      ((commit run message files).1 = Except.ok () ↔
        run ("add" :: files) = true ∧ run ["commit", "-m", message] = true)) := by
  constructor
  · intro h
    subst h
    rfl
  · intro h
    match files, h with
    | f :: fs, _ =>
      simp only [commit]
      by_cases hadd : run ("add" :: f :: fs) = true
      · by_cases hcommit : run ["commit", "-m", message] = true
        · simp [hadd, hcommit]
        · simp [hadd, hcommit]
      · simp [hadd]

theorem commit_spec_witness :
    commit (fun _ => true) "msg" [] = (Except.ok (), []) ∧
    ((commit (fun _ => true) "msg" ["Cargo.toml"]).1 = Except.ok () ↔
      (fun _ => true) ("add" :: ["Cargo.toml"]) = true ∧
      (fun _ => true) ["commit", "-m", "msg"] = true) :=
  ⟨(commit_spec (fun _ => true) "msg" []).1 rfl,
   ((commit_spec (fun _ => true) "msg" ["Cargo.toml"]).2 (by simp)).2.2⟩

/-- C2 counterexample: a batch run in which the single repository's operation
fails produces a diagnostic for that repository, yet `run_git_on_all` still
returns `Ok(())`, so the process exit status is `0`; this contradicts the
claimed "non-zero exit status iff at least one operation failed". -/
theorem run_git_on_all_exit_zero_despite_failure :
    (run_git_on_all (fun _ _ => Except.error "boom") [("repo", ["m"])]).diagnostics =
      [("repo", "boom")] ∧
    processExitCode
      (run_git_on_all (fun _ _ => Except.error "boom") [("repo", ["m"])]).result = 0 :=
  ⟨rfl, rfl⟩

/-- C2 (amended): every repository group is processed; each group whose
operation fails contributes exactly one diagnostic attributed to that
repository (in order), and the run proceeds to the remaining groups; however
`run_git_on_all` always returns `Ok(())`, so the process exits with status `0`
whether or not any per-repository operation failed. -/
theorem run_git_on_all_isolates_failures
    (op : String → List String → Except String Unit)
    (groups : List (String × List String)) :
    (run_git_on_all op groups).diagnostics =
      groups.filterMap (fun g =>
        match op g.1 g.2 with
        | .error e => some (g.1, e)
        | .ok _ => none) ∧
    (run_git_on_all op groups).result = Except.ok () ∧
    processExitCode (run_git_on_all op groups).result = 0 := by
  refine ⟨?_, rfl, rfl⟩
  show runGitLoop op groups = _
  induction groups with
  | nil => rfl
  | cons g rest ih =>
    cases hop : op g.1 g.2 with
    | error e => simp [runGitLoop, hop, List.filterMap_cons, ih]
    | ok u => simp [runGitLoop, hop, List.filterMap_cons, ih]

end MetaTool

namespace MetaTool

/-! Round-trip of the formatting-preserving manifest parser. -/

theorem spanP_append (p : Char → Bool) (l : List Char) :
    (spanP p l).1 ++ (spanP p l).2 = l := by
  induction l with
  | nil => rfl
  | cons c cs ih =>
    by_cases h : p c = true
    · simp [spanP, h, ih]
    · simp [spanP, h]

theorem renderLine_parseLine (l : List Char) (m : MLine)
    (h : parseLine l = some m) : renderLine m = l := by
  have hsplit : (spanP isWsChar l).1 ++ (spanP isWsChar l).2 = l := spanP_append _ _
  simp only [parseLine] at h
  cases h1 : (spanP isWsChar l).2 with
  | nil =>
    rw [h1] at hsplit
    simp only [h1, Option.some.injEq] at h
    subst h
    simpa [renderLine] using hsplit
  | cons c r1 =>
    rw [h1] at hsplit
    simp only [h1] at h
    by_cases hc : c = '#'
    · subst hc
      rw [if_pos rfl] at h
      simp only [Option.some.injEq] at h
      subst h
      simpa [renderLine] using hsplit
    · rw [if_neg hc] at h
      by_cases hb : c = '['
      · subst hb
        rw [if_pos rfl] at h
        have hsplit2 : (spanP (fun x => !decide (x = ']')) r1).1 ++
            (spanP (fun x => !decide (x = ']')) r1).2 = r1 := spanP_append _ _
        cases h2 : (spanP (fun x => !decide (x = ']')) r1).2 with
        | nil =>
          simp only [h2] at h
          exact absurd h (by simp)
        | cons c2 ws2 =>
          rw [h2] at hsplit2
          simp only [h2] at h
          by_cases hc2 : c2 = ']'
          · subst hc2
            rw [if_pos rfl] at h
            by_cases hcond : ((spanP (fun x => !decide (x = ']')) r1).1.all isKeyChar &&
                ws2.all isWsChar) = true
            · rw [if_pos hcond] at h
              simp only [Option.some.injEq] at h
              subst h
              simp only [renderLine]
              rw [hsplit2, hsplit]
            · rw [if_neg hcond] at h
              exact absurd h (by simp)
          · rw [if_neg hc2] at h
            exact absurd h (by simp)
      · rw [if_neg hb] at h
        by_cases hkey : (spanP isKeyChar (c :: r1)).1 = []
        · rw [if_pos hkey] at h
          exact absurd h (by simp)
        · rw [if_neg hkey] at h
          have hsplitK : (spanP isKeyChar (c :: r1)).1 ++
              (spanP isKeyChar (c :: r1)).2 = c :: r1 := spanP_append _ _
          have hsplit3 : (spanP isWsChar (spanP isKeyChar (c :: r1)).2).1 ++
              (spanP isWsChar (spanP isKeyChar (c :: r1)).2).2 =
                (spanP isKeyChar (c :: r1)).2 := spanP_append _ _
          cases h3 : (spanP isWsChar (spanP isKeyChar (c :: r1)).2).2 with
          | nil =>
            simp only [h3] at h
            exact absurd h (by simp)
          | cons c3 r4 =>
            rw [h3] at hsplit3
            simp only [h3] at h
            by_cases hc3 : c3 = '='
            · subst hc3
              rw [if_pos rfl] at h
              have hsplit4 : (spanP isWsChar r4).1 ++ (spanP isWsChar r4).2 = r4 :=
                spanP_append _ _
              cases h4 : (spanP isWsChar r4).2 with
              | nil =>
                simp only [h4] at h
                exact absurd h (by simp)
              | cons c4 r6 =>
                rw [h4] at hsplit4
                simp only [h4] at h
                by_cases hc4 : c4 = '"'
                · subst hc4
                  rw [if_pos rfl] at h
                  have hsplit5 : (spanP (fun x => !decide (x = '"')) r6).1 ++
                      (spanP (fun x => !decide (x = '"')) r6).2 = r6 := spanP_append _ _
                  cases h5 : (spanP (fun x => !decide (x = '"')) r6).2 with
                  | nil =>
                    simp only [h5] at h
                    exact absurd h (by simp)
                  | cons c5 ws4 =>
                    rw [h5] at hsplit5
                    simp only [h5] at h
                    by_cases hc5 : c5 = '"'
                    · subst hc5
                      rw [if_pos rfl] at h
                      by_cases hws : ws4.all isWsChar = true
                      · rw [if_pos hws] at h
                        simp only [Option.some.injEq] at h
                        subst h
                        simp only [renderLine, List.append_assoc]
                        rw [hsplit5, hsplit4, hsplit3, hsplitK, hsplit]
                      · rw [if_neg hws] at h
                        exact absurd h (by simp)
                    · rw [if_neg hc5] at h
                      exact absurd h (by simp)
                · rw [if_neg hc4] at h
                  exact absurd h (by simp)
            · rw [if_neg hc3] at h
              exact absurd h (by simp)

theorem splitNl_ne_nil (s : List Char) : splitNl s ≠ [] := by
  cases s with
  | nil => simp [splitNl]
  | cons c rest =>
    simp only [splitNl]
    by_cases h : c = '\n'
    · simp [h]
    · simp only [if_neg h]
      cases hs : splitNl rest <;> simp

theorem joinNl_splitNl (s : List Char) : joinNl (splitNl s) = s := by
  induction s with
  | nil => rfl
  | cons c rest ih =>
    simp only [splitNl]
    by_cases h : c = '\n'
    · subst h
      rw [if_pos rfl]
      cases hs : splitNl rest with
      | nil => exact absurd hs (splitNl_ne_nil rest)
      | cons hd tl =>
        rw [hs] at ih
        show joinNl ([] :: hd :: tl) = '\n' :: rest
        simp only [joinNl, List.nil_append]
        rw [ih]
    · rw [if_neg h]
      cases hs : splitNl rest with
      | nil => exact absurd hs (splitNl_ne_nil rest)
      | cons hd tl =>
        rw [hs] at ih
        simp only [hs]
        cases tl with
        | nil =>
          simp only [joinNl] at ih ⊢
          rw [ih]
        | cons hd2 tl2 =>
          simp only [joinNl, List.cons_append] at ih ⊢
          rw [ih]

theorem parseLines_render (ls : List (List Char)) (ms : List MLine)
    (h : parseLines ls = some ms) : ms.map renderLine = ls := by
  induction ls generalizing ms with
  | nil =>
    simp only [parseLines, Option.some.injEq] at h
    subst h
    rfl
  | cons l rest ih =>
    simp only [parseLines] at h
    cases hp : parseLine l with
    | none =>
      simp only [hp] at h
      exact absurd h (by simp)
    | some m =>
      cases hr : parseLines rest with
      | none =>
        simp only [hp, hr] at h
        exact absurd h (by simp)
      | some ms' =>
        simp only [hp, hr, Option.some.injEq] at h
        subst h
        simp only [List.map_cons]
        rw [renderLine_parseLine l m hp, ih ms' hr]

/-- C8: loading a syntactically valid manifest and saving it without mutation
reproduces the original content byte for byte: whenever `parseDoc` succeeds,
`serializeDoc` of the parsed document is exactly the input character stream. -/
theorem manifest_roundtrip (s : List Char) (d : List MLine)
    (h : parseDoc s = some d) : serializeDoc d = s := by
  simp only [parseDoc] at h
  simp only [serializeDoc]
  rw [parseLines_render (splitNl s) d h]
  exact joinNl_splitNl s

theorem manifest_roundtrip_witness :
    serializeDoc [MLine.header [] ['p', 'k', 'g'] [],
        MLine.kv [] ['v', 'e', 'r'] [' '] [' '] ['1'] []] =
      ['[', 'p', 'k', 'g', ']', '\n', 'v', 'e', 'r', ' ', '=', ' ', '"', '1', '"'] :=
  manifest_roundtrip
    ['[', 'p', 'k', 'g', ']', '\n', 'v', 'e', 'r', ' ', '=', ' ', '"', '1', '"']
    [MLine.header [] ['p', 'k', 'g'] [],
      MLine.kv [] ['v', 'e', 'r'] [' '] [' '] ['1'] []] rfl

end MetaTool
